import Mathlib

/-!
Shallow embedding, in Lean 4, of the hookclaw retrieval-and-ranking pipeline:
reciprocal rank fusion (src/rank-fusion.js), temporal decay, adaptive
filtering, MMR diversity filtering and the fuzzy LRU prompt cache
(src/metrics.js hook handler), the memory-search client, and the utility
tracker (src/utility-tracker.js).

Modelling conventions:
- JavaScript numbers are modelled as exact rationals (or reals where the
  source uses Math.exp / Math.log); floating-point rounding is out of scope.
- JavaScript Map is modelled as an association list in insertion order:
  Map.get is first-binding lookup, Map.set replaces in place or appends,
  Map.delete removes the binding.  Keys are unique by construction.
- Array.prototype.sort with a comparator (a, b) => key b - key a is a stable
  descending sort; it is modelled by Mathlib's stable insertion sort with
  the relation fun a b => key b <= key a.
- Date.now() is passed explicitly as a parameter where the source reads the
  clock; asynchronous completion (Promise.race) is modelled by an explicit
  outcome value.
-/

namespace HookClaw

/-- Lookup in an association list, mirroring JavaScript Map.get.  The first
binding wins; map keys are unique by construction, so first = only. -/
def alookup {β : Type} (l : List (String × β)) (k : String) : Option β :=
  (l.find? (fun p => p.1 = k)).map (fun p => p.2)

/-- Mirror of JavaScript Map.set: replace the binding in place if the key is
present (keeping its position in iteration order), otherwise append. -/
def aset {β : Type} : List (String × β) → String → β → List (String × β)
  | [], k, v => [(k, v)]
  | p :: rest, k, v => if p.1 = k then (k, v) :: rest else p :: aset rest k v

/-- Mirror of JavaScript Map.delete: remove the (first, hence unique)
binding of the key. -/
def eraseKey {β : Type} (l : List (String × β)) (k : String) : List (String × β) :=
  l.eraseP (fun p => p.1 = k)

/-- Containment of one character list in another, mirroring
String.prototype.includes on the underlying character sequences. -/
def listContains (sub : List Char) : List Char → Bool
  | [] => sub.isEmpty
  | c :: rest => sub.isPrefixOf (c :: rest) || listContains sub rest

/-- Mirror of hay.includes(sub) for JavaScript strings. -/
def strContains (hay sub : String) : Bool := listContains sub.toList hay.toList

/-! ### Date parsing from paths

Both rank-fusion.js and metrics.js match the first occurrence of the regex
(\d{4}-\d{2}-\d{2}) in a path and build new Date(match + "T00:00:00Z").
Node rejects out-of-range calendar components (Invalid Date), which
parseDateFromPath in metrics.js filters with isNaN.  Timestamps are in
milliseconds since the Unix epoch. -/

/-- Numeric value of a decimal digit character. -/
def digitVal (c : Char) : ℕ := c.toNat - '0'.toNat

/-- Try to match the fixed-width pattern dddd-dd-dd at the head of the
character list (the regex has no variable-width parts, so leftmost regex
search is exactly a scan for the first matching position). -/
def matchYMDAt : List Char → Option (ℕ × ℕ × ℕ)
  | y1 :: y2 :: y3 :: y4 :: h1 :: m1 :: m2 :: h2 :: d1 :: d2 :: _ =>
    if y1.isDigit ∧ y2.isDigit ∧ y3.isDigit ∧ y4.isDigit ∧ h1 = '-' ∧
       m1.isDigit ∧ m2.isDigit ∧ h2 = '-' ∧ d1.isDigit ∧ d2.isDigit then
      some (digitVal y1 * 1000 + digitVal y2 * 100 + digitVal y3 * 10 + digitVal y4,
            digitVal m1 * 10 + digitVal m2,
            digitVal d1 * 10 + digitVal d2)
    else none
  | _ => none

/-- First match of the date pattern anywhere in the character list. -/
def findYMD : List Char → Option (ℕ × ℕ × ℕ)
  | [] => none
  | c :: rest =>
    match matchYMDAt (c :: rest) with
    | some r => some r
    | none => findYMD rest

/-- Gregorian leap-year predicate. -/
def isLeapYear (y : ℕ) : Bool := y % 4 = 0 ∧ (y % 100 ≠ 0 ∨ y % 400 = 0)

/-- Number of days in a month. -/
def daysInMonth (y m : ℕ) : ℕ :=
  if m = 1 then 31 else if m = 2 then (if isLeapYear y then 29 else 28)
  else if m = 3 then 31 else if m = 4 then 30 else if m = 5 then 31
  else if m = 6 then 30 else if m = 7 then 31 else if m = 8 then 31
  else if m = 9 then 30 else if m = 10 then 31 else if m = 11 then 30
  else 31

/-- Calendar validity, as checked by Node's ISO date parser (out-of-range
components give Invalid Date). -/
def validYMD (y m d : ℕ) : Bool :=
  1 ≤ m ∧ m ≤ 12 ∧ 1 ≤ d ∧ d ≤ daysInMonth y m

/-- Days from the Unix epoch to the given civil date (standard
days-from-civil algorithm; all divisions below act on non-negative
operands for the 4-digit years the regex can produce). -/
def daysFromCivil (y m d : ℤ) : ℤ :=
  let y2 := if m ≤ 2 then y - 1 else y
  let era := (if 0 ≤ y2 then y2 else y2 - 399) / 400
  let yoe := y2 - era * 400
  let mp := if 2 < m then m - 3 else m + 9
  let doy := (153 * mp + 2) / 5 + d - 1
  let doe := yoe * 365 + yoe / 4 - yoe / 100 + doy
  era * 146097 + doe - 719468

/-- Mirror of parseDateFromPath in metrics.js: first YYYY-MM-DD substring of
the path, as a UTC-midnight timestamp in milliseconds; none when there is no
match or the calendar date is invalid. -/
def parseDateFromPath (path : String) : Option ℤ :=
  match findYMD path.toList with
  | none => none
  | some (y, m, d) =>
    if validYMD y m d then some (daysFromCivil y m d * 86400000) else none

end HookClaw

namespace HookClaw.RankFusion

/-- Input document for fusion: a scored chunk from one retrieval signal. -/
structure Doc where
  path : String
  text : String
  score : ℚ
deriving DecidableEq

/-- Per-signal rank breakdown attached to each fused result
(the _rrfDetails field). -/
structure RrfDetails where
  vectorRank : ℕ
  bm25Rank : ℕ
  recencyRank : ℕ
  entityRank : ℕ
deriving DecidableEq

/-- Output document of fuseResults: the first-occurrence fields of the doc
with the fused RRF score and the per-signal rank breakdown. -/
structure FusedDoc where
  path : String
  text : String
  score : ℚ
  details : RrfDetails
deriving DecidableEq

/-- Identity key of a document: path when non-empty (truthy), else the
first 100 characters of the text. -/
def docKey (d : Doc) : String := if d.path ≠ "" then d.path else d.text.take 100

/-- Identity key of a fused output document (same rule as docKey). -/
def fusedKey (d : FusedDoc) : String := if d.path ≠ "" then d.path else d.text.take 100

/-- Accumulator pass of buildRankMap: 1-based rank of the first occurrence
of each key, in list order. -/
def buildRankMapAux : List Doc → ℕ → List (String × ℕ) → List (String × ℕ)
  | [], _, m => m
  | d :: rest, i, m =>
    buildRankMapAux rest (i + 1)
      (if (alookup m (docKey d)).isSome then m else m ++ [(docKey d, i + 1)])

/-- Mirror of buildRankMap: doc key to 1-based rank within a pre-sorted
results array. -/
def buildRankMap (results : List Doc) : List (String × ℕ) := buildRankMapAux results 0 []

/-- Date used by the recency signal: the path date, or the epoch
(new Date(0)) when the path has no date match.  Invalid calendar dates
(Invalid Date in JavaScript, whose NaN time makes the sort comparator
vacuous) are likewise modelled as the epoch; no claim depends on them. -/
def pathDateMs (path : String) : ℤ := (parseDateFromPath path).getD 0

/-- Enumerate a sorted association into a rank map: key of position i gets
rank i + 1 (Map.set semantics; keys are unique because the input documents
were deduplicated). -/
def enumRanks {γ : Type} : List (String × γ) → ℕ → List (String × ℕ) → List (String × ℕ)
  | [], _, m => m
  | p :: rest, i, m => enumRanks rest (i + 1) (aset m p.1 (i + 1))

/-- Mirror of buildRecencyRankMap: documents sorted by path date descending
(stable), newest first, rank 1-based. -/
def buildRecencyRankMap (allDocs : List Doc) : List (String × ℕ) :=
  let withDates := allDocs.map (fun d => (docKey d, pathDateMs d.path))
  let sorted := List.insertionSort (fun a b => b.2 ≤ a.2) withDates
  enumRanks sorted 0 []

/-- Mirror of buildEntityRankMap: empty map when there are no entities;
otherwise documents sorted descending (stable) by the number of
case-insensitive entity substring matches in the text. -/
def buildEntityRankMap (allDocs : List Doc) (entities : List String) : List (String × ℕ) :=
  if entities.isEmpty then []
  else
    let lowerEntities := entities.map String.toLower
    let scored := allDocs.map (fun d =>
      (docKey d, lowerEntities.countP (fun e => strContains d.text.toLower e)))
    let sorted := List.insertionSort (fun a b => b.2 ≤ a.2) scored
    enumRanks sorted 0 []

/-- Temporal window filter passed to fuseResults. -/
structure TemporalFilter where
  startDate : Option ℤ
  endDate : Option ℤ
deriving DecidableEq

/-- Fusion weights for the four signals. -/
structure Weights where
  vector : ℚ
  bm25 : ℚ
  recency : ℚ
  entity : ℚ
deriving DecidableEq

/-- DEFAULT_WEIGHTS of rank-fusion.js. -/
def defaultWeights : Weights := ⟨2/5, 3/10, 1/5, 1/10⟩

/-- Parameter record of fuseResults. -/
structure FuseParams where
  vectorResults : List Doc
  bm25Results : List Doc
  weights : Weights
  k : ℚ
  maxResults : ℕ
  temporalFilter : Option TemporalFilter
  entities : List String
deriving DecidableEq

/-- Accumulator pass deduplicating documents by identity key, first
occurrence wins (the docMap of fuseResults). -/
def collectAux : List Doc → List (String × Doc) → List (String × Doc)
  | [], acc => acc
  | d :: rest, acc =>
    collectAux rest (if (alookup acc (docKey d)).isSome then acc else acc ++ [(docKey d, d)])

/-- The deduplicated document map of fuseResults, in first-occurrence order. -/
def collectDocs (l : List Doc) : List (String × Doc) := collectAux l []

/-- Temporal-window test applied to a fused doc's path: docs without a date
match are kept; docs with an Invalid Date are kept (NaN comparisons are all
false in JavaScript); otherwise the date must not fall before startDate nor
after endDate. -/
def keepTemporal (tf : TemporalFilter) (path : String) : Bool :=
  match findYMD path.toList with
  | none => true
  | some (y, m, d) =>
    if validYMD y m d then
      let t := daysFromCivil y m d * 86400000
      (match tf.startDate with | some s => decide (¬ t < s) | none => true) &&
      (match tf.endDate with | some e => decide (¬ e < t) | none => true)
    else true

/-- RRF scoring of one deduplicated document: each signal contributes
weight / (k + rank), with rank defaulting to totalDocs + 1 for a document
missing from that signal's map.  (The source reads weights.vector || 0 and
rank || defaultRank; the weight record is total here, and ranks are 1-based
so the falsy-zero fallback cannot fire.) -/
def scoreDoc (w : Weights) (k : ℚ) (defaultRank : ℕ)
    (vr br rr er : List (String × ℕ)) (p : String × Doc) : FusedDoc :=
  let vRank := (alookup vr p.1).getD defaultRank
  let bRank := (alookup br p.1).getD defaultRank
  let rRank := (alookup rr p.1).getD defaultRank
  let eRank := (alookup er p.1).getD defaultRank
  { path := p.2.path
    text := p.2.text
    score := w.vector / (k + vRank) + w.bm25 / (k + bRank) +
             w.recency / (k + rRank) + w.entity / (k + eRank)
    details := ⟨vRank, bRank, rRank, eRank⟩ }

/-- The docMap local of fuseResults. -/
def fusionDocMap (p : FuseParams) : List (String × Doc) :=
  collectDocs (p.vectorResults ++ p.bm25Results)

/-- Number of distinct identity keys among the fusion inputs (docMap.size). -/
def fusionDocCount (p : FuseParams) : ℕ := (fusionDocMap p).length

/-- The scored local of fuseResults: every deduplicated document scored by
the four rank maps, with defaultRank = totalDocs + 1. -/
def fusionScored (p : FuseParams) : List FusedDoc :=
  (fusionDocMap p).map
    (scoreDoc p.weights p.k ((fusionDocMap p).length + 1)
      (buildRankMap p.vectorResults) (buildRankMap p.bm25Results)
      (buildRecencyRankMap ((fusionDocMap p).map (fun q => q.2)))
      (buildEntityRankMap ((fusionDocMap p).map (fun q => q.2)) p.entities))

/-- The sorted local of fuseResults: scored documents sorted descending by
RRF score (stable). -/
def fusionSorted (p : FuseParams) : List FusedDoc :=
  List.insertionSort (fun a b => b.score ≤ a.score) (fusionScored p)

/-- The filtered local of fuseResults: the temporal window filter, applied
only when a window with a start or end date is present. -/
def fusionFiltered (p : FuseParams) : List FusedDoc :=
  match p.temporalFilter with
  | some tf =>
    if tf.startDate.isSome || tf.endDate.isSome then
      (fusionSorted p).filter (fun d : FusedDoc => keepTemporal tf d.path)
    else fusionSorted p
  | none => fusionSorted p

/-- Mirror of fuseResults in rank-fusion.js: empty when there are no input
documents, else the scored, sorted, temporally filtered documents truncated
to maxResults. -/
def fuseResults (p : FuseParams) : List FusedDoc :=
  if (fusionDocMap p).isEmpty then []
  else (fusionFiltered p).take p.maxResults

instance : IsTotal FusedDoc (fun a b => b.score ≤ a.score) :=
  ⟨fun a b => le_total b.score a.score⟩

instance : IsTrans FusedDoc (fun a b => b.score ≤ a.score) :=
  ⟨fun _ _ _ h1 h2 => le_trans h2 h1⟩

end HookClaw.RankFusion

namespace HookClaw.Metrics

/-! ### Temporal decay (metrics.js hook handler, applyTemporalDecay) -/

/-- Scored result entering temporal decay.  The source keeps the pre-decay
score in _originalScore for observability; it is the originalScore field. -/
structure MResult where
  path : String
  score : ℝ
  originalScore : Option ℝ

/-- Decay of a single result: no date in the path means no decay penalty;
otherwise the age in hours is clamped at 0 and the score is multiplied by
exp(-(ln 2 / halfLifeHours) * ageHours). -/
noncomputable def decayOne (halfLifeHours now : ℝ) (r : MResult) : MResult :=
  match parseDateFromPath r.path with
  | none => r
  | some t =>
    let ageHours := max 0 ((now - (t : ℝ)) / (1000 * 60 * 60))
    let decayRate := Real.log 2 / halfLifeHours
    { path := r.path
      score := r.score * Real.exp (-decayRate * ageHours)
      originalScore := some r.score }

/-- Mirror of applyTemporalDecay: empty input stays empty; non-positive
half-life disables decay entirely; otherwise decay every result and re-sort
descending by the decayed score (stable). -/
noncomputable def applyTemporalDecay (results : List MResult) (halfLifeHours now : ℝ) :
    List MResult :=
  match results with
  | [] => []
  | r :: rest =>
    if halfLifeHours ≤ 0 then r :: rest
    else List.insertionSort (fun a b => b.score ≤ a.score)
      ((r :: rest).map (decayOne halfLifeHours now))

instance : IsTotal MResult (fun a b => b.score ≤ a.score) :=
  ⟨fun a b => le_total b.score a.score⟩

instance : IsTrans MResult (fun a b => b.score ≤ a.score) :=
  ⟨fun _ _ _ h1 h2 => le_trans h2 h1⟩

/-! ### Adaptive filter (adaptiveFilter in metrics.js and the v1 handler) -/

/-- Scored result entering the adaptive filter.  The score is optional to
model results[0]?.score ?? 0: a missing score field is treated as 0. -/
structure AResult where
  text : String
  score : Option ℚ
deriving DecidableEq

/-- Top score the adaptive filter looks at: the first result's score, with
a missing score treated as 0. -/
def topScoreOf (results : List AResult) : ℚ :=
  ((results.head?).bind AResult.score).getD 0

/-- Mirror of adaptiveFilter: top score below 0.4 drops everything, top
score above 0.7 keeps at most min(2, maxResults), otherwise (both
boundaries included) at most maxResults. -/
def adaptiveFilter (results : List AResult) (maxResults : ℕ) : List AResult :=
  match results with
  | [] => []
  | r :: rest =>
    let topScore := r.score.getD 0
    if topScore < 2/5 then []
    else if 7/10 < topScore then (r :: rest).take (min 2 maxResults)
    else (r :: rest).take maxResults

/-! ### Tokenisation and Jaccard similarity (metrics.js) -/

/-- Word character of the regex \w (ASCII letters, digits, underscore). -/
def isWordChar (c : Char) : Bool := c.isAlphanum || c = '_'

/-- Split a character list into its maximal runs satisfying p, mirroring a
global regex match; the accumulator carries the current run reversed. -/
def runsAux (p : Char → Bool) : List Char → List Char → List (List Char)
  | [], cur => if cur.isEmpty then [] else [cur.reverse]
  | c :: rest, cur =>
    if p c then runsAux p rest (c :: cur)
    else if cur.isEmpty then runsAux p rest []
    else cur.reverse :: runsAux p rest []

/-- Mirror of tokenize: the set of lowercase word tokens
(str.toLowerCase().match of word-character runs, collected into a Set). -/
def tokenize (s : String) : Finset String :=
  ((runsAux isWordChar s.toLower.toList []).map (fun l => String.mk l)).toFinset

/-- Mirror of jaccardSimilarity on token sets: 1 when both are empty, 0
when exactly one is empty, otherwise intersection over union. -/
def jaccardSimilarity (a b : Finset String) : ℚ :=
  if a.card = 0 ∧ b.card = 0 then 1
  else if a.card = 0 ∨ b.card = 0 then 0
  else ((a ∩ b).card : ℚ) / ((a.card : ℚ) + (b.card : ℚ) - ((a ∩ b).card : ℚ))

/-- Mirror of textSimilarity: Jaccard similarity of the word token sets. -/
def textSimilarity (ta tb : String) : ℚ := jaccardSimilarity (tokenize ta) (tokenize tb)

/-! ### MMR diversity filter (mmrFilter in metrics.js)

The configured maxResults defaults to Infinity in the source, so it is
modelled as an extended natural number. -/

/-- Chunk entering the MMR filter. -/
structure MmrResult where
  text : String
  score : ℚ
deriving DecidableEq

/-- Maximum similarity of a candidate to any already-selected chunk
(0 when nothing is selected yet). -/
def maxSimToSelected (selected : List MmrResult) (c : MmrResult) : ℚ :=
  selected.foldl
    (fun m s => let sim := textSimilarity c.text s.text; if m < sim then sim else m) 0

/-- The MMR objective: lambda * relevance - (1 - lambda) * max similarity. -/
def mmrScore (lam : ℚ) (selected : List MmrResult) (c : MmrResult) : ℚ :=
  lam * c.score - (1 - lam) * maxSimToSelected selected c

/-- Scan of the candidate array for the index with the strictly largest MMR
score.  bestMmr starts at -Infinity in the source, so the first candidate
always replaces the initial none. -/
def pickAux (lam : ℚ) (selected : List MmrResult) :
    List MmrResult → ℕ → Option (ℕ × ℚ) → Option (ℕ × ℚ)
  | [], _, best => best
  | c :: rest, i, best =>
    let s := mmrScore lam selected c
    let best2 :=
      match best with
      | none => (i, s)
      | some (j, b) => if b < s then (i, s) else (j, b)
    pickAux lam selected rest (i + 1) (some best2)

/-- Greedy MMR selection loop.  The fuel starts at the number of candidates;
each iteration removes exactly one candidate, so the loop is the while loop
of the source.  The two defensive branches are unreachable: pickAux on a
non-empty candidate list always returns an index below its length. -/
def mmrLoop (lam : ℚ) (maxResults : ℕ∞) :
    ℕ → List MmrResult → List MmrResult → List MmrResult
  | 0, selected, _ => selected
  | Nat.succ fuel, selected, candidates =>
    if (selected.length : ℕ∞) < maxResults ∧ candidates ≠ [] then
      match pickAux lam selected candidates 0 none with
      | none => selected
      | some (i, _) =>
        match candidates[i]? with
        | none => selected
        | some c =>
          mmrLoop lam maxResults fuel (selected ++ [c]) (candidates.eraseIdx i)
    else selected

/-- Mirror of mmrFilter: lists of length at most one are returned as they
are; otherwise the top result is selected unconditionally and the rest are
picked greedily by MMR score. -/
def mmrFilter (results : List MmrResult) (lam : ℚ) (maxResults : ℕ∞) : List MmrResult :=
  match results with
  | [] => []
  | [r] => [r]
  | r :: rest => mmrLoop lam maxResults rest.length [r] rest

/-- Truncation of a list to an extended-natural bound (no truncation at
the default Infinity). -/
def truncTo (m : ℕ∞) (l : List MmrResult) : List MmrResult :=
  match m with
  | none => l
  | some n => l.take n

/-! ### Fuzzy LRU prompt cache (PromptCache in metrics.js) -/

/-- Cached entry: the stored results, the insertion timestamp, and the
token set of the key. -/
structure CacheEntry (α : Type) where
  results : α
  ts : ℤ
  tokens : Finset String
deriving DecidableEq

/-- Cache state: configuration plus the entries in Map iteration order,
least recently used first. -/
structure Cache (α : Type) where
  maxSize : ℕ
  ttlMs : ℤ
  fuzzyThreshold : ℚ
  entries : List (String × CacheEntry α)
deriving DecidableEq

/-- Scan for the best fuzzy match: similarity must reach the threshold and
strictly beat the best similarity so far (initially 0). -/
def bestFuzzyAux {α : Type} (θ : ℚ) (keyTokens : Finset String) :
    List (String × CacheEntry α) → Option (CacheEntry α) × ℚ → Option (CacheEntry α) × ℚ
  | [], best => best
  | (_, e) :: rest, (best, bestSim) =>
    let sim := jaccardSimilarity keyTokens e.tokens
    if θ ≤ sim ∧ bestSim < sim then bestFuzzyAux θ keyTokens rest (some e, sim)
    else bestFuzzyAux θ keyTokens rest (best, bestSim)

/-- Fuzzy half of PromptCache.get.  Expired entries encountered during the
scan are deleted (modelled by filtering them out up front: deleting the
current entry of a JavaScript Map iteration does not affect the rest of the
iteration).  On a hit, the matched entry is moved to the most-recently-used
end; the source finds its key by object identity, which coincides with the
first structurally equal entry because bestFuzzyAux keeps the earliest
entry among equal similarities. -/
def fuzzyLookup {α : Type} [DecidableEq α] (c : Cache α) (key : String) (now : ℤ) :
    Option α × Cache α :=
  if c.fuzzyThreshold < 1 then
    let keyTokens := tokenize key
    let live := c.entries.filter (fun p => decide (now - p.2.ts ≤ c.ttlMs))
    match (bestFuzzyAux c.fuzzyThreshold keyTokens live (none, 0)).1 with
    | some e =>
      let entries2 :=
        match live.find? (fun p => p.2 = e) with
        | some q => (live.eraseP (fun p => p.2 = e)) ++ [(q.1, e)]
        | none => live
      (some e.results, { c with entries := entries2 })
    | none => (none, { c with entries := live })
  else (none, c)

/-- Mirror of PromptCache.get: an exact unexpired hit refreshes the LRU
position and returns the stored results; an expired exact hit is deleted
and the lookup falls through to fuzzy matching. -/
def cacheGet {α : Type} [DecidableEq α] (c : Cache α) (key : String) (now : ℤ) :
    Option α × Cache α :=
  match alookup c.entries key with
  | some e =>
    if c.ttlMs < now - e.ts then
      fuzzyLookup { c with entries := eraseKey c.entries key } key now
    else
      (some e.results, { c with entries := eraseKey c.entries key ++ [(key, e)] })
  | none => fuzzyLookup c key now

/-- Mirror of PromptCache.set: delete any existing binding, append the new
entry at the most-recently-used end, and evict the single oldest entry when
the size exceeds maxSize. -/
def cacheSet {α : Type} (c : Cache α) (key : String) (results : α) (now : ℤ) : Cache α :=
  let e0 := if (alookup c.entries key).isSome then eraseKey c.entries key else c.entries
  let e1 := e0 ++ [(key, ⟨results, now, tokenize key⟩)]
  { c with entries := if c.maxSize < e1.length then e1.tail else e1 }

end HookClaw.Metrics

namespace HookClaw.MemoryClient

/-! ### Memory search client (memory-client.js)

searchMemories races tool.execute against a timeoutMs rejection and maps
the settled value into plain result records; any rejection (including the
timeout) is caught and turned into an empty list.  The race is modelled by
an explicit outcome value: which of the three events (execute resolved,
execute rejected or threw, timeout fired first) happened. -/

/-- Raw per-result record of the details.results branch of the tool output. -/
structure RawR where
  snippet : Option String
  text : Option String
  source : Option String
  path : Option String
  startLine : Option ℕ
  endLine : Option ℕ
  lines : Option String
  score : Option ℚ
deriving DecidableEq

/-- Raw per-memory record of the details.memories fallback branch. -/
structure RawM where
  text : Option String
  score : Option ℚ
deriving DecidableEq

/-- The details object of the tool result. -/
structure Details where
  results : Option (List RawR)
  memories : Option (List RawM)
deriving DecidableEq

/-- Raw settled value of tool.execute. -/
structure RawResult where
  details : Option Details
deriving DecidableEq

/-- Normalised memory search result. -/
structure MemoryResult where
  text : String
  source : String
  path : String
  lines : String
  score : ℚ
deriving DecidableEq

/-- JavaScript a || b for an optional string, where the empty string is
falsy. -/
def jsStrOr (a : Option String) (b : String) : String :=
  match a with
  | some s => if s = "" then b else s
  | none => b

/-- Mapping of one raw result record, mirroring the field fallbacks of
searchMemories (startLine && endLine is falsy when either is missing or 0). -/
def mapRawR (r : RawR) : MemoryResult :=
  { text := jsStrOr r.snippet (jsStrOr r.text "")
    source := jsStrOr r.source "memory"
    path := jsStrOr r.path ""
    lines :=
      match r.startLine, r.endLine with
      | some s, some e =>
        if s ≠ 0 ∧ e ≠ 0 then toString s ++ "-" ++ toString e else jsStrOr r.lines ""
      | _, _ => jsStrOr r.lines ""
    score := r.score.getD 0 }

/-- Parse of a settled tool result: the details.results branch first, then
the details.memories fallback, else no results. -/
def parseRaw (raw : RawResult) : List MemoryResult :=
  match raw.details.bind Details.results with
  | some rs => rs.map mapRawR
  | none =>
    match raw.details.bind Details.memories with
    | some ms => ms.map (fun m => ⟨jsStrOr m.text "", "memory", "", "", m.score.getD 0⟩)
    | none => []

/-- Outcome of Promise.race([tool.execute(...), timeout rejection]):
the execute call resolved first, the execute call rejected or threw first,
or the timeout rejection fired first (covering an execute call that never
settles within timeoutMs). -/
inductive RaceOutcome where
  | resolved (raw : RawResult)
  | rejected (msg : String)
  | timedOut
deriving DecidableEq

/-- Mirror of searchMemories: no tool (creation failed or returned null)
gives no results; a rejection or timeout is caught and gives no results;
a settled value is parsed. -/
def searchMemories (tool : Option Unit) (outcome : RaceOutcome) : List MemoryResult :=
  match tool with
  | none => []
  | some _ =>
    match outcome with
    | .resolved raw => parseRaw raw
    | .rejected _ => []
    | .timedOut => []

end HookClaw.MemoryClient

namespace HookClaw.UtilityTracker

/-! ### Utility tracker (utility-tracker.js) -/

/-- BAYESIAN_PRIOR of utility-tracker.js. -/
def bayesianPrior : ℚ := 2

/-- BAYESIAN_PRIOR_CITATIONS of utility-tracker.js. -/
def bayesianPriorCitations : ℚ := 1

/-- MIN_RETRIEVALS_FOR_SCORE of utility-tracker.js. -/
def minRetrievalsForScore : ℕ := 3

/-- Stored per-chunk record: retrieval and citation counters. -/
structure UtilRecord where
  retrievals : ℕ
  citations : ℕ
deriving DecidableEq

/-- The _scores map: chunk identity key to record. -/
abbrev Scores : Type := List (String × UtilRecord)

/-- Mirror of getUtilityScore: neutral 0.5 default below the
minimum-observations floor, otherwise the Bayesian-smoothed estimate
(citations + 1) / (retrievals + 2). -/
def getUtilityScore (scores : Scores) (chunkKey : String) : ℚ :=
  match alookup scores chunkKey with
  | none => 1/2
  | some e =>
    if e.retrievals < minRetrievalsForScore then 1/2
    else ((e.citations : ℚ) + bayesianPriorCitations) / ((e.retrievals : ℚ) + bayesianPrior)

/-- Injected memory chunk as seen by recordInjection. -/
structure ChunkIn where
  path : String
  text : String
deriving DecidableEq

/-- Identity key of an injected chunk: m.path || (m.text || "").slice(0, 100). -/
def chunkKey (m : ChunkIn) : String := if m.path ≠ "" then m.path else m.text.take 100

/-- Tracker state: the persistent scores map and the per-session pending
injections (key and originating text of each injected chunk). -/
structure TrackerState where
  scores : Scores
  pending : List (String × List (String × String))

/-- The empty tracker (no stored scores, no pending injections). -/
def initState : TrackerState := ⟨[], []⟩

/-- Increment the retrieval counter of a key, creating a zero-initialised
record when the key is new. -/
def incRetrieval (sc : Scores) (k : String) : Scores :=
  let e := (alookup sc k).getD ⟨0, 0⟩
  aset sc k { e with retrievals := e.retrievals + 1 }

/-- Mirror of recordInjection: nothing happens for an empty injection list;
otherwise each chunk with a non-empty key gets its retrieval counter
incremented, and the (key, text) pairs replace the session's pending
entry. -/
def recordInjection (st : TrackerState) (sessionKey : String)
    (injected : List ChunkIn) : TrackerState :=
  if injected.isEmpty then st
  else
    let entries := (injected.map (fun m => (chunkKey m, m.text))).filter
      (fun e => e.1 ≠ "")
    { scores := entries.foldl (fun sc e => incRetrieval sc e.1) st.scores
      pending := aset st.pending sessionKey entries }

/-- Separator character class of the content-word split regex
[\s\/\-_.,:;!?()]+ in recordResponse. -/
def isSepChar (c : Char) : Bool :=
  c.isWhitespace || c = '/' || c = '-' || c = '_' || c = '.' || c = ',' ||
  c = ':' || c = ';' || c = '!' || c = '?' || c = '(' || c = ')'

/-- Significant words of a chunk text: lowercase, split on the separator
class, keeping only words longer than 3 characters (which also discards the
empty fragments the JavaScript split can produce). -/
def contentWords (source : String) : List String :=
  ((Metrics.runsAux (fun c => !isSepChar c) source.toLower.toList []).map
    (fun l => String.mk l)).filter (fun w => 3 < w.length)

/-- Citation heuristic of recordResponse: at least 30 percent of the
chunk's significant words (from its text, falling back to of the key when
the text is empty) occur as substrings of the lowercased response. -/
def judgeCited (key text response : String) : Bool :=
  let sourceText := if text ≠ "" then text else key
  let ws := contentWords sourceText
  let matchCount := ws.countP (fun w => strContains response.toLower w)
  let matchRat : ℚ := if ws.length = 0 then 0 else (matchCount : ℚ) / (ws.length : ℚ)
  decide ((3/10 : ℚ) ≤ matchRat)

/-- Increment the citation counter of a key, when a record exists. -/
def incCitation (sc : Scores) (k : String) : Scores :=
  match alookup sc k with
  | none => sc
  | some e => aset sc k { e with citations := e.citations + 1 }

/-- Mirror of recordResponse: consume the session's pending list; with no
pending list or an empty response nothing else happens; otherwise every
pending chunk judged cited gets its citation counter incremented. -/
def recordResponse (st : TrackerState) (sessionKey : String)
    (responseText : String) : TrackerState :=
  match alookup st.pending sessionKey with
  | none => { st with pending := eraseKey st.pending sessionKey }
  | some entries =>
    if responseText = "" then { st with pending := eraseKey st.pending sessionKey }
    else
      { scores := entries.foldl
          (fun sc e => if judgeCited e.1 e.2 responseText then incCitation sc e.1 else sc)
          st.scores
        pending := eraseKey st.pending sessionKey }

/-- One tracker operation: an injection or a response. -/
inductive Op where
  | inj (sessionKey : String) (chunks : List ChunkIn)
  | resp (sessionKey : String) (text : String)

/-- Apply one operation to the tracker state. -/
def applyOp (st : TrackerState) : Op → TrackerState
  | .inj sk cs => recordInjection st sk cs
  | .resp sk t => recordResponse st sk t

/-- Run a sequence of operations from the empty tracker. -/
def runOps (ops : List Op) : TrackerState := ops.foldl applyOp initState

/-- Retrieval count of a key (0 when absent). -/
def retrievalsOf (sc : Scores) (k : String) : ℕ := ((alookup sc k).getD ⟨0, 0⟩).retrievals

/-- Citation count of a key (0 when absent). -/
def citationsOf (sc : Scores) (k : String) : ℕ := ((alookup sc k).getD ⟨0, 0⟩).citations

/-- Number of pending occurrences of a key across all sessions. -/
def pendCount (p : List (String × List (String × String))) (k : String) : ℕ :=
  (p.map (fun s => s.2.countP (fun e => e.1 = k))).sum

end HookClaw.UtilityTracker

/-!
## Theorems

Each claim of the specification gets one theorem below (with witness or
counterexample theorems where applicable), preceded by helper lemmas.
-/

namespace HookClaw.UtilityTracker

/-- Claim C7: getUtilityScore(key) returns exactly 0.5 for every key whose
record is absent or has retrievals < 3, and for every key with
retrievals >= 3 it returns exactly (citations + 1) / (retrievals + 2). -/
theorem getUtilityScore_spec (scores : Scores) (k : String) :
    (alookup scores k = none → getUtilityScore scores k = 1/2) ∧
    (∀ e : UtilRecord, alookup scores k = some e → e.retrievals < 3 →
      getUtilityScore scores k = 1/2) ∧
    (∀ e : UtilRecord, alookup scores k = some e → 3 ≤ e.retrievals →
      getUtilityScore scores k = ((e.citations : ℚ) + 1) / ((e.retrievals : ℚ) + 2)) := by
  refine ⟨fun h => ?_, fun e he hlt => ?_, fun e he hge => ?_⟩
  · simp [getUtilityScore, h]
  · simp [getUtilityScore, he, minRetrievalsForScore, hlt]
  · simp [getUtilityScore, he, minRetrievalsForScore, Nat.not_lt.mpr hge,
      bayesianPrior, bayesianPriorCitations]

/-- Witness for C7: a key retrieved 5 times and cited twice scores
(2 + 1) / (5 + 2). -/
theorem getUtilityScore_spec_witness :
    getUtilityScore [("k", ⟨5, 2⟩)] "k" = (((2 : ℕ) : ℚ) + 1) / (((5 : ℕ) : ℚ) + 2) :=
  (getUtilityScore_spec [("k", ⟨5, 2⟩)] "k").2.2 ⟨5, 2⟩ (by decide) (by decide)

end HookClaw.UtilityTracker

namespace HookClaw.Metrics

/-- Claim C3: for a non-empty results list the adaptive filter returns
nothing when the top score is strictly below 0.4, at most
min(2, maxResults) results when it is strictly above 0.7, and at most
maxResults results when 0.4 <= top <= 0.7 (both boundaries are moderate);
a missing top score is treated as 0 and hence dropped. -/
theorem adaptiveFilter_spec (results : List AResult) (maxResults : ℕ)
    (hne : results ≠ []) :
    (topScoreOf results < 2/5 → adaptiveFilter results maxResults = []) ∧
    (7/10 < topScoreOf results →
      (adaptiveFilter results maxResults).length ≤ min 2 maxResults) ∧
    (2/5 ≤ topScoreOf results → topScoreOf results ≤ 7/10 →
      (adaptiveFilter results maxResults).length ≤ maxResults) ∧
    (results.head?.bind AResult.score = none →
      adaptiveFilter results maxResults = []) := by
  match results with
  | [] => exact absurd rfl hne
  | r :: rest =>
    have hts : topScoreOf (r :: rest) = r.score.getD 0 := by
      simp [topScoreOf]
    refine ⟨fun h => ?_, fun h => ?_, fun h1 h2 => ?_, fun h => ?_⟩
    · rw [hts] at h
      simp [adaptiveFilter, h]
    · rw [hts] at h
      have hnot : ¬ r.score.getD 0 < 2/5 := by
        intro hc
        exact absurd (lt_trans hc (by norm_num)) (lt_asymm h)
      simp only [adaptiveFilter, if_neg hnot, if_pos h]
      exact le_trans (le_of_eq (List.length_take _ _)) (min_le_left _ _)
    · rw [hts] at h1 h2
      simp only [adaptiveFilter, if_neg (not_lt.mpr h1), if_neg (not_lt.mpr h2)]
      exact le_trans (le_of_eq (List.length_take _ _)) (min_le_left _ _)
    · simp only [List.head?_cons, Option.some_bind] at h
      have : r.score.getD 0 = 0 := by simp [h]
      simp [adaptiveFilter, this]

/-- Witness for C3: a list with top score 1 (strong match) keeps at most
min(2, 5) results. -/
theorem adaptiveFilter_spec_witness :
    (adaptiveFilter [⟨"", some 1⟩, ⟨"", some 1⟩, ⟨"", some 0⟩] 5).length ≤ min 2 5 :=
  (adaptiveFilter_spec [⟨"", some 1⟩, ⟨"", some 1⟩, ⟨"", some 0⟩] 5 (by decide)).2.1
    (by norm_num [topScoreOf])

end HookClaw.Metrics

namespace HookClaw.MemoryClient

/-- Claim C8: searchMemories never rejects — when the underlying tool is
unavailable, or the raced execute call rejects, throws, or is beaten by the
timeout, searchMemories resolves to the empty list instead of propagating
the error. -/
theorem searchMemories_fail_soft (tool : Option Unit) (outcome : RaceOutcome) :
    (∀ msg, outcome = RaceOutcome.rejected msg → searchMemories tool outcome = []) ∧
    (outcome = RaceOutcome.timedOut → searchMemories tool outcome = []) ∧
    (tool = none → searchMemories tool outcome = []) := by
  refine ⟨fun msg h => ?_, fun h => ?_, fun h => ?_⟩
  · cases tool <;> simp [searchMemories, h]
  · cases tool <;> simp [searchMemories, h]
  · cases outcome <;> simp [searchMemories, h]

/-- Witness for C8: a timeout with a live tool still yields no results
rather than an error. -/
theorem searchMemories_fail_soft_witness :
    searchMemories (some ()) RaceOutcome.timedOut = [] :=
  (searchMemories_fail_soft (some ()) RaceOutcome.timedOut).2.1 rfl

end HookClaw.MemoryClient

namespace HookClaw.Metrics

/-- Score of the decay of a dated result: the exponential-decay formula
with the age clamped at zero. -/
theorem decayOne_score_of_date (h now : ℝ) (r : MResult) (t : ℤ)
    (hp : parseDateFromPath r.path = some t) :
    (decayOne h now r).score =
      r.score * Real.exp (-(Real.log 2 / h) * max 0 ((now - (t : ℝ)) / 3600000)) := by
  simp only [decayOne, hp]
  norm_num

/-- An undated result is left untouched by decayOne. -/
theorem decayOne_of_no_date (h now : ℝ) (r : MResult)
    (hp : parseDateFromPath r.path = none) : decayOne h now r = r := by
  simp [decayOne, hp]

/-- A result aged exactly one half-life decays to exactly half its score. -/
theorem decayOne_halflife (h now : ℝ) (r : MResult) (t : ℤ) (hh : 0 < h)
    (hp : parseDateFromPath r.path = some t) (hage : now - (t : ℝ) = h * 3600000) :
    (decayOne h now r).score = r.score / 2 := by
  rw [decayOne_score_of_date h now r t hp, hage,
    mul_div_assoc, div_self (by norm_num : (3600000 : ℝ) ≠ 0), mul_one,
    max_eq_right hh.le, neg_mul, div_mul_cancel₀ _ hh.ne.symm,
    Real.exp_neg, Real.exp_log two_pos]
  rw [div_eq_mul_inv]

/-- Claim C2: for halfLifeHours > 0, applyTemporalDecay replaces every
result by its decayed copy (a permutation of the pointwise decay map),
re-sorts descending by the decayed score, and for every result with a
parseable path date the decayed score is
score * exp(-(ln 2 / halfLifeHours) * max 0 ((now - date) / 3600000));
in particular a chunk aged exactly one half-life ends at half its original
score. -/
theorem applyTemporalDecay_spec (results : List MResult) (h now : ℝ) (hh : 0 < h) :
    (applyTemporalDecay results h now).Perm (results.map (decayOne h now)) ∧
    (applyTemporalDecay results h now).Sorted (fun a b => b.score ≤ a.score) ∧
    (∀ r : MResult, ∀ t : ℤ, parseDateFromPath r.path = some t →
      (decayOne h now r).score =
        r.score * Real.exp (-(Real.log 2 / h) * max 0 ((now - (t : ℝ)) / 3600000)) ∧
      (now - (t : ℝ) = h * 3600000 → (decayOne h now r).score = r.score / 2)) := by
  refine ⟨?_, ?_, fun r t hp =>
    ⟨decayOne_score_of_date h now r t hp, fun hage => decayOne_halflife h now r t hh hp hage⟩⟩
  · cases results with
    | nil => simp [applyTemporalDecay]
    | cons r0 rest =>
      simp only [applyTemporalDecay, if_neg (not_le.mpr hh)]
      exact List.perm_insertionSort _ _
  · cases results with
    | nil => simp [applyTemporalDecay]
    | cons r0 rest =>
      simp only [applyTemporalDecay, if_neg (not_le.mpr hh)]
      exact List.sorted_insertionSort _ _

/-- Witness for C2: one chunk dated at the epoch, evaluated one half-life
(of 1 hour) later, halves exactly; the output is the decayed singleton. -/
theorem applyTemporalDecay_spec_witness :
    (decayOne 1 3600000 ⟨"m/1970-01-01.md", 1, none⟩).score =
      (⟨"m/1970-01-01.md", 1, none⟩ : MResult).score / 2 :=
  ((applyTemporalDecay_spec [⟨"m/1970-01-01.md", 1, none⟩] 1 3600000 (by norm_num)).2.2
    ⟨"m/1970-01-01.md", 1, none⟩ 0 (by decide)).2 (by push_cast; norm_num)

/-- Claim C9 (amended): applyTemporalDecay never increases the score of a
result whose score is non-negative — every output element is the decayed
copy of an input element, and decay multiplies a non-negative score by a
factor in (0, 1] (age is clamped at 0, so future-dated chunks keep factor
exactly 1).  Negative scores are excluded: the decay factor moves them
toward zero, which increases them (see the counterexample). -/
theorem applyTemporalDecay_no_boost (results : List MResult) (h now : ℝ) (hh : 0 < h) :
    ∀ e ∈ applyTemporalDecay results h now, ∃ r ∈ results,
      e = decayOne h now r ∧ (0 ≤ r.score → e.score ≤ r.score) := by
  intro e he
  cases results with
  | nil => simp [applyTemporalDecay] at he
  | cons r0 rest =>
    simp only [applyTemporalDecay, if_neg (not_le.mpr hh)] at he
    have he2 : e ∈ (r0 :: rest).map (decayOne h now) :=
      (List.perm_insertionSort _ _).mem_iff.mp he
    obtain ⟨r, hr, hre⟩ := List.mem_map.mp he2
    refine ⟨r, hr, hre.symm, fun hs => ?_⟩
    rw [← hre]
    cases hp : parseDateFromPath r.path with
    | none => simp [decayOne, hp]
    | some t =>
      rw [decayOne_score_of_date h now r t hp]
      apply mul_le_of_le_one_right hs
      rw [Real.exp_le_one_iff, neg_mul]
      exact neg_nonpos.mpr (mul_nonneg
        (div_nonneg (Real.log_nonneg one_le_two) hh.le) (le_max_left _ _))

/-- Witness for C9 (amended): the decayed singleton of a non-negatively
scored dated chunk never gains score. -/
theorem applyTemporalDecay_no_boost_witness :
    ∃ e ∈ applyTemporalDecay [⟨"m/1970-01-01.md", 1, none⟩] 1 3600000,
      ∃ r ∈ [(⟨"m/1970-01-01.md", 1, none⟩ : MResult)],
        e = decayOne 1 3600000 r ∧ (0 ≤ r.score → e.score ≤ r.score) := by
  have h1 : applyTemporalDecay [⟨"m/1970-01-01.md", 1, none⟩] 1 3600000 =
      [decayOne 1 3600000 ⟨"m/1970-01-01.md", 1, none⟩] := by
    simp only [applyTemporalDecay, if_neg (by norm_num : ¬ (1 : ℝ) ≤ 0)]
    simp [List.insertionSort]
  have hm : decayOne 1 3600000 ⟨"m/1970-01-01.md", 1, none⟩ ∈
      applyTemporalDecay [⟨"m/1970-01-01.md", 1, none⟩] 1 3600000 := by
    rw [h1]
    exact List.mem_singleton_self _
  exact ⟨_, hm,
    applyTemporalDecay_no_boost [⟨"m/1970-01-01.md", 1, none⟩] 1 3600000 (by norm_num) _ hm⟩

/-- Counterexample for C9 as stated: a chunk with score -1 dated exactly
one half-life ago comes out with score -1/2 > -1, so decay increased the
score. -/
theorem applyTemporalDecay_boost_counterexample :
    ∃ e ∈ applyTemporalDecay [⟨"m/1970-01-01.md", -1, none⟩] 1 3600000,
      (-1 : ℝ) < e.score := by
  have h1 : applyTemporalDecay [⟨"m/1970-01-01.md", -1, none⟩] 1 3600000 =
      [decayOne 1 3600000 ⟨"m/1970-01-01.md", -1, none⟩] := by
    simp only [applyTemporalDecay, if_neg (by norm_num : ¬ (1 : ℝ) ≤ 0)]
    simp [List.insertionSort]
  have h2 : (decayOne 1 3600000 (⟨"m/1970-01-01.md", -1, none⟩ : MResult)).score =
      (⟨"m/1970-01-01.md", -1, none⟩ : MResult).score / 2 :=
    decayOne_halflife 1 3600000 _ 0 (by norm_num) (by decide) (by push_cast; norm_num)
  refine ⟨decayOne 1 3600000 ⟨"m/1970-01-01.md", -1, none⟩, by simp [h1], ?_⟩
  rw [h2]
  norm_num

end HookClaw.Metrics

namespace HookClaw.Metrics

/-- With lambda = 1 the MMR objective is exactly the relevance score. -/
theorem mmrScore_one (selected : List MmrResult) (c : MmrResult) :
    mmrScore 1 selected c = c.score := by
  simp [mmrScore]

/-- The best-candidate scan never moves off a best value that dominates
every remaining candidate (the update needs a strict improvement). -/
theorem pickAux_const (sel : List MmrResult) (cs : List MmrResult) (i j : ℕ) (b : ℚ)
    (hall : ∀ c ∈ cs, mmrScore 1 sel c ≤ b) :
    pickAux 1 sel cs i (some (j, b)) = some (j, b) := by
  induction cs generalizing i with
  | nil => rfl
  | cons c rest ih =>
    simp only [pickAux, if_neg (not_lt.mpr (hall c (List.mem_cons_self c rest)))]
    exact ih (i + 1) (fun d hd => hall d (List.mem_cons_of_mem c hd))

/-- With lambda = 1 and candidates sorted descending by score, the scan
picks the head (index 0), because later candidates never strictly beat it. -/
theorem pickAux_sorted_head (sel : List MmrResult) (c0 : MmrResult)
    (rest : List MmrResult) (hs : ∀ c ∈ rest, c.score ≤ c0.score) :
    pickAux 1 sel (c0 :: rest) 0 none = some (0, c0.score) := by
  simp only [pickAux, mmrScore_one]
  exact pickAux_const sel rest 1 0 c0.score
    (fun c hc => by rw [mmrScore_one]; exact hs c hc)

/-- With lambda = 1 and no bound, the greedy loop appends the candidates in
order. -/
theorem mmrLoop_top (fuel : ℕ) :
    ∀ (cands sel : List MmrResult),
      cands.Sorted (fun a b => b.score ≤ a.score) → cands.length ≤ fuel →
      mmrLoop 1 none fuel sel cands = sel ++ cands := by
  induction fuel with
  | zero =>
    intro cands sel _ hlen
    rw [List.length_eq_zero.mp (Nat.le_zero.mp hlen)]
    simp [mmrLoop]
  | succ fuel ih =>
    intro cands sel hs hlen
    cases cands with
    | nil => simp [mmrLoop]
    | cons c0 rest =>
      rw [List.sorted_cons] at hs
      have h1 : (sel.length : ℕ∞) < none := WithTop.coe_lt_top sel.length
      simp only [mmrLoop, if_pos (And.intro h1 (List.cons_ne_nil c0 rest)),
        pickAux_sorted_head sel c0 rest hs.1]
      simp only [List.getElem?_cons_zero, List.eraseIdx_cons_zero]
      rw [ih rest (sel ++ [c0]) hs.2 (Nat.le_of_succ_le_succ hlen)]
      simp

/-- With lambda = 1 and a finite bound, the greedy loop appends the first
bound-minus-selected candidates in order. -/
theorem mmrLoop_coe (n : ℕ) (fuel : ℕ) :
    ∀ (cands sel : List MmrResult),
      cands.Sorted (fun a b => b.score ≤ a.score) → cands.length ≤ fuel →
      mmrLoop 1 (some n) fuel sel cands = sel ++ cands.take (n - sel.length) := by
  induction fuel with
  | zero =>
    intro cands sel _ hlen
    rw [List.length_eq_zero.mp (Nat.le_zero.mp hlen)]
    simp [mmrLoop]
  | succ fuel ih =>
    intro cands sel hs hlen
    by_cases hlt : sel.length < n
    · cases cands with
      | nil => simp [mmrLoop]
      | cons c0 rest =>
        rw [List.sorted_cons] at hs
        have hcast : ((sel.length : ℕ∞) < (some n : ℕ∞)) := WithTop.coe_lt_coe.mpr hlt
        simp only [mmrLoop, if_pos (And.intro hcast (List.cons_ne_nil c0 rest)),
          pickAux_sorted_head sel c0 rest hs.1]
        simp only [List.getElem?_cons_zero, List.eraseIdx_cons_zero]
        rw [ih rest (sel ++ [c0]) hs.2 (Nat.le_of_succ_le_succ hlen)]
        have hsub : n - sel.length = (n - (sel ++ [c0]).length) + 1 := by
          simp only [List.length_append, List.length_cons, List.length_nil]
          omega
        rw [hsub, List.take_succ_cons]
        simp
    · have hcast : ¬ ((sel.length : ℕ∞) < (some n : ℕ∞)) :=
        fun hc => hlt (WithTop.coe_lt_coe.mp hc)
      have hsub : n - sel.length = 0 := by omega
      cases cands with
      | nil => simp [mmrLoop, hsub]
      | cons c0 rest =>
        simp only [mmrLoop, hsub, List.take_zero, List.append_nil]
        rw [if_neg (fun hc => hcast hc.1)]

/-- Claim C6 (amended): for an input sorted descending by score and a
bound of at least 1, mmrFilter with lambda = 1 returns exactly the input
truncated to the bound, and in particular keeps the first input element
first.  The restriction maxResults >= 1 is forced: the top result is
selected before the bound is consulted, so maxResults = 0 still returns
one element (see the counterexample). -/
theorem mmrFilter_lambda_one (results : List MmrResult) (m : ℕ∞)
    (hs : results.Sorted (fun a b => b.score ≤ a.score)) (hm : 1 ≤ m) :
    mmrFilter results 1 m = truncTo m results ∧
    (results ≠ [] → (mmrFilter results 1 m).head? = results.head?) := by
  have heq : mmrFilter results 1 m = truncTo m results := by
    rcases results with _ | ⟨r1, _ | ⟨r2, rest⟩⟩
    · rcases m with _ | n <;> simp [mmrFilter, truncTo]
    · rcases m with _ | n
      · simp [mmrFilter, truncTo]
      · have hn : 1 ≤ n := by
          have hm2 : (1 : ℕ∞) ≤ (n : ℕ∞) := hm
          exact_mod_cast hm2
        have htake : List.take n [r1] = [r1] :=
          List.take_of_length_le (by simpa using hn)
        simp [mmrFilter, truncTo, htake]
    · rw [List.sorted_cons] at hs
      rcases m with _ | n
      · simp only [mmrFilter, truncTo]
        exact mmrLoop_top (r2 :: rest).length (r2 :: rest) [r1] hs.2 le_rfl
      · have hn : 1 ≤ n := by
          have hm2 : (1 : ℕ∞) ≤ (n : ℕ∞) := hm
          exact_mod_cast hm2
        simp only [mmrFilter, truncTo]
        rw [mmrLoop_coe n (r2 :: rest).length (r2 :: rest) [r1] hs.2 le_rfl]
        have hsub : n = (n - 1) + 1 := by omega
        rw [hsub, List.take_succ_cons]
        simp
  refine ⟨heq, fun hne => ?_⟩
  rw [heq]
  rcases results with _ | ⟨r, rest⟩
  · exact absurd rfl hne
  · rcases m with _ | n
    · rfl
    · have hn : 1 ≤ n := by
        have hm2 : (1 : ℕ∞) ≤ (n : ℕ∞) := hm
        exact_mod_cast hm2
      have hsub : n = (n - 1) + 1 := by omega
      rw [truncTo, hsub, List.take_succ_cons]
      rfl

/-- Witness for C6 (amended): a two-element descending list with bound 5
passes through unchanged. -/
theorem mmrFilter_lambda_one_witness :
    mmrFilter [⟨"a", 1⟩, ⟨"b", 0⟩] 1 (some 5) =
      truncTo (some 5) [⟨"a", 1⟩, ⟨"b", 0⟩] ∧
    (([⟨"a", 1⟩, ⟨"b", 0⟩] : List MmrResult) ≠ [] →
      (mmrFilter [⟨"a", 1⟩, ⟨"b", 0⟩] 1 (some 5)).head? =
        ([⟨"a", 1⟩, ⟨"b", 0⟩] : List MmrResult).head?) :=
  mmrFilter_lambda_one [⟨"a", 1⟩, ⟨"b", 0⟩] (some 5) (by decide) (by decide)

/-- Counterexample for C6 as stated: with maxResults = 0 the output is not
the input truncated to 0 — the unconditionally selected top result is
still returned. -/
theorem mmrFilter_maxzero_counterexample :
    mmrFilter [⟨"a", 1⟩, ⟨"b", 0⟩] 1 (some 0) ≠
      truncTo (some 0) [⟨"a", 1⟩, ⟨"b", 0⟩] := by
  decide

end HookClaw.Metrics

namespace HookClaw.RankFusion

/-- Unfolding of association lookup over a cons cell. -/
theorem alookup_cons {β : Type} (p : String × β) (l : List (String × β)) (k : String) :
    alookup (p :: l) k = if p.1 = k then some p.2 else alookup l k := by
  by_cases h : p.1 = k <;> simp [alookup, List.find?_cons, h]

/-- A lookup succeeds exactly when the key occurs in the map. -/
theorem alookup_isSome_iff {β : Type} (l : List (String × β)) (k : String) :
    (alookup l k).isSome = true ↔ k ∈ l.map Prod.fst := by
  induction l with
  | nil => simp [alookup]
  | cons p rest ih =>
    rw [alookup_cons]
    by_cases h : p.1 = k
    · simp [h]
    · rw [if_neg h, ih]
      simp only [List.map_cons, List.mem_cons]
      constructor
      · exact fun hm => Or.inr hm
      · rintro (he | hm)
        · exact absurd he.symm h
        · exact hm

/-- A lookup fails exactly when the key does not occur in the map. -/
theorem alookup_eq_none_iff {β : Type} (l : List (String × β)) (k : String) :
    alookup l k = none ↔ k ∉ l.map Prod.fst := by
  rw [← alookup_isSome_iff]
  cases alookup l k <;> simp

/-- The deduplication pass keeps the keys of its accumulator distinct. -/
theorem collectAux_nodup (l : List Doc) :
    ∀ acc : List (String × Doc), (acc.map Prod.fst).Nodup →
      ((collectAux l acc).map Prod.fst).Nodup := by
  induction l with
  | nil => intro acc h; simpa [collectAux] using h
  | cons d rest ih =>
    intro acc h
    simp only [collectAux]
    by_cases hs : (alookup acc (docKey d)).isSome = true
    · rw [if_pos hs]
      exact ih acc h
    · rw [if_neg hs]
      apply ih
      rw [List.map_append, List.nodup_append]
      refine ⟨h, by simp, ?_⟩
      have hnone : docKey d ∉ acc.map Prod.fst :=
        (alookup_eq_none_iff acc (docKey d)).mp (Option.not_isSome_iff_eq_none.mp hs)
      intro a ha hb
      simp only [List.map_cons, List.map_nil, List.mem_singleton] at hb
      exact hnone (hb ▸ ha)

/-- Every element of the deduplication pass either came from the
accumulator or is the first occurrence of its (fresh) key in the input. -/
theorem collectAux_mem (l : List Doc) :
    ∀ acc : List (String × Doc), ∀ q ∈ collectAux l acc,
      q ∈ acc ∨ (q.1 ∉ acc.map Prod.fst ∧
        l.find? (fun d => docKey d = q.1) = some q.2) := by
  induction l with
  | nil => intro acc q hq; left; simpa [collectAux] using hq
  | cons d rest ih =>
    intro acc q hq
    simp only [collectAux] at hq
    by_cases hs : (alookup acc (docKey d)).isSome = true
    · rw [if_pos hs] at hq
      rcases ih acc q hq with h | ⟨hnot, hfind⟩
      · exact Or.inl h
      · right
        refine ⟨hnot, ?_⟩
        have hne : ¬ (docKey d = q.1) := fun he =>
          hnot (he ▸ (alookup_isSome_iff acc (docKey d)).mp hs)
        rw [List.find?_cons_of_neg _ (by simpa using hne)]
        exact hfind
    · rw [if_neg hs] at hq
      have hnone : docKey d ∉ acc.map Prod.fst :=
        (alookup_eq_none_iff acc (docKey d)).mp (Option.not_isSome_iff_eq_none.mp hs)
      rcases ih _ q hq with h | ⟨hnot, hfind⟩
      · rcases List.mem_append.mp h with h2 | h2
        · exact Or.inl h2
        · have hq2 : q = (docKey d, d) := by simpa using h2
          right
          subst hq2
          refine ⟨hnone, ?_⟩
          rw [List.find?_cons_of_pos _ (by simp)]
      · right
        constructor
        · intro hmem
          exact hnot (by simp [hmem])
        · have hne : ¬ (docKey d = q.1) := fun he => hnot (by simp [he])
          rw [List.find?_cons_of_neg _ (by simpa using hne)]
          exact hfind

/-- Each entry of the deduplicated doc map binds its key to the first input
document with that key. -/
theorem docKey_of_mem_collect (l : List Doc) (q : String × Doc)
    (hq : q ∈ collectDocs l) :
    docKey q.2 = q.1 ∧ l.find? (fun d => docKey d = q.1) = some q.2 := by
  rcases collectAux_mem l [] q hq with h | ⟨_, hfind⟩
  · simp at h
  · have h4 := List.find?_some hfind
    simp only [decide_eq_true_eq] at h4
    exact ⟨h4, hfind⟩

/-- The doc-map keys are pairwise distinct. -/
theorem collectDocs_nodup (l : List Doc) : ((collectDocs l).map Prod.fst).Nodup :=
  collectAux_nodup l [] (by simp)

/-- Scoring a deduplicated entry keeps the identity key of the underlying
document. -/
theorem fusedKey_scoreDoc (w : Weights) (k : ℚ) (dr : ℕ)
    (vr br rr er : List (String × ℕ)) (q : String × Doc) :
    fusedKey (scoreDoc w k dr vr br rr er q) = docKey q.2 := rfl

/-- Every fused output document comes from the scored doc map. -/
theorem mem_fusionScored_of_mem_fuseResults (p : FuseParams) (e : FusedDoc)
    (he : e ∈ fuseResults p) : e ∈ fusionScored p := by
  rw [fuseResults] at he
  by_cases hd : (fusionDocMap p).isEmpty = true
  · rw [if_pos hd] at he
    simp at he
  · rw [if_neg hd] at he
    have h1 : e ∈ fusionFiltered p := (List.take_sublist _ _).subset he
    have h2 : e ∈ fusionSorted p := by
      rw [fusionFiltered] at h1
      split at h1
      · split at h1
        · exact List.mem_of_mem_filter h1
        · exact h1
      · exact h1
    rw [fusionSorted] at h2
    exact (List.perm_insertionSort _ _).mem_iff.mp h2

/-- Claim C4: the fused output has at most one entry per identity key, and
every output entry carries the path and text of the first occurrence of its
key in vectorResults followed by bm25Results. -/
theorem fuseResults_dedup (p : FuseParams) :
    (fuseResults p).Pairwise (fun a b => fusedKey a ≠ fusedKey b) ∧
    ∀ e ∈ fuseResults p, ∃ d : Doc,
      (p.vectorResults ++ p.bm25Results).find? (fun d0 => docKey d0 = fusedKey e) = some d ∧
      e.path = d.path ∧ e.text = d.text := by
  constructor
  · have hnodup : ((fusionDocMap p).map Prod.fst).Nodup := collectDocs_nodup _
    have hpw : (fusionDocMap p).Pairwise (fun q1 q2 => q1.1 ≠ q2.1) :=
      List.pairwise_map.mp hnodup
    have hpw2 : (fusionScored p).Pairwise (fun a b => fusedKey a ≠ fusedKey b) := by
      rw [fusionScored, List.pairwise_map]
      refine List.Pairwise.imp_of_mem ?_ hpw
      intro q1 q2 h1 h2 hne
      rw [fusedKey_scoreDoc, fusedKey_scoreDoc,
        (docKey_of_mem_collect _ q1 h1).1, (docKey_of_mem_collect _ q2 h2).1]
      exact hne
    have hpw3 : (fusionSorted p).Pairwise (fun a b => fusedKey a ≠ fusedKey b) := by
      rw [fusionSorted]
      exact ((List.perm_insertionSort _ _).pairwise_iff (fun h => h.symm)).mpr hpw2
    have hpw4 : (fusionFiltered p).Pairwise (fun a b => fusedKey a ≠ fusedKey b) := by
      rw [fusionFiltered]
      split
      · split
        · exact List.Pairwise.sublist (List.filter_sublist _) hpw3
        · exact hpw3
      · exact hpw3
    rw [fuseResults]
    by_cases hd : (fusionDocMap p).isEmpty = true
    · rw [if_pos hd]
      exact List.Pairwise.nil
    · rw [if_neg hd]
      exact List.Pairwise.sublist (List.take_sublist _ _) hpw4
  · intro e he
    have h1 := mem_fusionScored_of_mem_fuseResults p e he
    rw [fusionScored] at h1
    obtain ⟨q, hq, hfe⟩ := List.mem_map.mp h1
    obtain ⟨hkey, hfind⟩ := docKey_of_mem_collect _ q hq
    have hk2 : fusedKey e = q.1 := by rw [← hfe, fusedKey_scoreDoc, hkey]
    refine ⟨q.2, ?_, ?_, ?_⟩
    · rw [hk2]
      exact hfind
    · rw [← hfe]
      rfl
    · rw [← hfe]
      rfl

/-- Witness for C4: a document present (with the same key) in both input
lists is fused into at most one entry per key, carrying the fields of the
first occurrence. -/
theorem fuseResults_dedup_witness :
    (fuseResults ⟨[⟨"a", "x", 1⟩], [⟨"a", "y", 1⟩], defaultWeights, 60, 5, none, []⟩).Pairwise
      (fun a b => fusedKey a ≠ fusedKey b) ∧
    ∀ e ∈ fuseResults ⟨[⟨"a", "x", 1⟩], [⟨"a", "y", 1⟩], defaultWeights, 60, 5, none, []⟩,
      ∃ d : Doc,
        (([⟨"a", "x", 1⟩] ++ [⟨"a", "y", 1⟩] : List Doc)).find?
          (fun d0 => docKey d0 = fusedKey e) = some d ∧
        e.path = d.path ∧ e.text = d.text :=
  fuseResults_dedup ⟨[⟨"a", "x", 1⟩], [⟨"a", "y", 1⟩], defaultWeights, 60, 5, none, []⟩

/-- Claim C1 (amended): with an empty entities list the entity rank map is
empty, so every fused document gets the sentinel entity rank
totalDocs + 1 and its score is the vector, bm25 and recency terms plus the
same constant weights.entity / (k + totalDocs + 1) for every document —
a non-zero but document-independent entity contribution. -/
theorem fuseResults_empty_entities (p : FuseParams) (h : p.entities = []) :
    ∀ e ∈ fuseResults p,
      e.details.entityRank = fusionDocCount p + 1 ∧
      e.score = p.weights.vector / (p.k + (e.details.vectorRank : ℚ)) +
        p.weights.bm25 / (p.k + (e.details.bm25Rank : ℚ)) +
        p.weights.recency / (p.k + (e.details.recencyRank : ℚ)) +
        p.weights.entity / (p.k + ((fusionDocCount p + 1 : ℕ) : ℚ)) := by
  intro e he
  have h1 := mem_fusionScored_of_mem_fuseResults p e he
  rw [fusionScored] at h1
  obtain ⟨q, hq, hfe⟩ := List.mem_map.mp h1
  have hemp : buildEntityRankMap ((fusionDocMap p).map (fun q => q.2)) p.entities = [] := by
    rw [h]
    simp [buildEntityRankMap]
  rw [← hfe]
  constructor
  · simp [scoreDoc, hemp, alookup, fusionDocCount]
  · simp [scoreDoc, hemp, alookup, fusionDocCount]

/-- Witness for C1 (amended): concrete single-document fusion with no
entities — the fused document carries the sentinel entity rank and the
constant entity term. -/
theorem fuseResults_empty_entities_witness :
    ∃ e ∈ fuseResults ⟨[⟨"a", "", 1⟩], [], defaultWeights, 60, 5, none, []⟩,
      e.details.entityRank =
        fusionDocCount ⟨[⟨"a", "", 1⟩], [], defaultWeights, 60, 5, none, []⟩ + 1 ∧
      e.score = defaultWeights.vector / (60 + (e.details.vectorRank : ℚ)) +
        defaultWeights.bm25 / (60 + (e.details.bm25Rank : ℚ)) +
        defaultWeights.recency / (60 + (e.details.recencyRank : ℚ)) +
        defaultWeights.entity /
          (60 + ((fusionDocCount ⟨[⟨"a", "", 1⟩], [], defaultWeights, 60, 5, none, []⟩ + 1 : ℕ) : ℚ)) := by
  have h1 : fuseResults ⟨[⟨"a", "", 1⟩], [], defaultWeights, 60, 5, none, []⟩ =
      [{ path := "a", text := ""
         score := defaultWeights.vector / (60 + ((1 : ℕ) : ℚ)) +
                  defaultWeights.bm25 / (60 + ((2 : ℕ) : ℚ)) +
                  defaultWeights.recency / (60 + ((1 : ℕ) : ℚ)) +
                  defaultWeights.entity / (60 + ((2 : ℕ) : ℚ))
         details := ⟨1, 2, 1, 2⟩ }] := rfl
  rw [h1]
  refine ⟨_, List.mem_singleton_self _, ?_⟩
  apply fuseResults_empty_entities ⟨[⟨"a", "", 1⟩], [], defaultWeights, 60, 5, none, []⟩ rfl
  rw [h1]
  exact List.mem_singleton_self _

/-- Counterexample for C1 as stated: with empty entities the fused score of
a document is not the sum of only the vector, bm25 and recency terms — the
entity signal still adds weights.entity / (k + totalDocs + 1). -/
theorem fuseResults_empty_entities_counterexample :
    ∃ e ∈ fuseResults ⟨[⟨"a", "", 1⟩], [], defaultWeights, 60, 5, none, []⟩,
      e.score ≠ defaultWeights.vector / (60 + (e.details.vectorRank : ℚ)) +
        defaultWeights.bm25 / (60 + (e.details.bm25Rank : ℚ)) +
        defaultWeights.recency / (60 + (e.details.recencyRank : ℚ)) := by
  have h1 : fuseResults ⟨[⟨"a", "", 1⟩], [], defaultWeights, 60, 5, none, []⟩ =
      [{ path := "a", text := ""
         score := defaultWeights.vector / (60 + ((1 : ℕ) : ℚ)) +
                  defaultWeights.bm25 / (60 + ((2 : ℕ) : ℚ)) +
                  defaultWeights.recency / (60 + ((1 : ℕ) : ℚ)) +
                  defaultWeights.entity / (60 + ((2 : ℕ) : ℚ))
         details := ⟨1, 2, 1, 2⟩ }] := rfl
  rw [h1]
  refine ⟨_, List.mem_singleton_self _, ?_⟩
  norm_num [defaultWeights]

end HookClaw.RankFusion

namespace HookClaw

/-- In a map with pairwise distinct keys, lookup of a member's key returns
exactly that member's value. -/
theorem alookup_of_mem_nodup {β : Type} (l : List (String × β)) (k : String) (e : β)
    (hnd : (l.map Prod.fst).Nodup) (hm : (k, e) ∈ l) : alookup l k = some e := by
  induction l with
  | nil => simp at hm
  | cons p rest ih =>
    rw [RankFusion.alookup_cons]
    rcases List.mem_cons.mp hm with he | hm2
    · rw [← he]
      simp
    · have hkin : k ∈ rest.map Prod.fst := by
        have := List.mem_map_of_mem Prod.fst hm2
        simpa using this
      rw [List.map_cons, List.nodup_cons] at hnd
      have hne : p.1 ≠ k := fun hpk => hnd.1 (hpk ▸ hkin)
      rw [if_neg hne]
      exact ih hnd.2 hm2

end HookClaw

namespace HookClaw.Metrics

/-- Claim C5: inserting a fresh key into a full cache (none expired needed
for the retrievability part) evicts exactly the least-recently-used entry,
which sits at the head of the iteration order: the new entries are the old
tail plus the fresh entry at the most-recently-used end, the size stays at
maxSize, and every surviving key is still retrievable by an exact get with
its stored results. -/
theorem cacheSet_lru {α : Type} [DecidableEq α] (c : Cache α) (key : String)
    (results : α) (now : ℤ)
    (hnodup : (c.entries.map Prod.fst).Nodup)
    (hfull : c.entries.length = c.maxSize)
    (hfresh : alookup c.entries key = none)
    (hpos : 1 ≤ c.maxSize) :
    (cacheSet c key results now).entries.length = c.maxSize ∧
    (cacheSet c key results now).entries =
      c.entries.tail ++ [(key, ⟨results, now, tokenize key⟩)] ∧
    (∀ k : String, ∀ e : CacheEntry α, ∀ now2 : ℤ, (k, e) ∈ c.entries.tail →
      now2 - e.ts ≤ c.ttlMs →
      (cacheGet (cacheSet c key results now) k now2).1 = some e.results) := by
  have hne : c.entries ≠ [] := by
    intro h0
    rw [h0] at hfull
    simp at hfull
    omega
  have hkeyout : key ∉ c.entries.map Prod.fst :=
    (RankFusion.alookup_eq_none_iff c.entries key).mp hfresh
  have hstep : (cacheSet c key results now).entries =
      c.entries.tail ++ [(key, ⟨results, now, tokenize key⟩)] := by
    simp only [cacheSet, hfresh, Option.isSome_none, Bool.false_eq_true, if_false]
    have hlen : c.maxSize < (c.entries ++ [(key, (⟨results, now, tokenize key⟩ : CacheEntry α))]).length := by
      rw [List.length_append, hfull]
      simp
    rw [if_pos hlen]
    cases hc : c.entries with
    | nil => exact absurd hc hne
    | cons p rest => simp
  have htailkeys : (c.entries.tail.map Prod.fst).Nodup :=
    List.Nodup.sublist (List.Sublist.map Prod.fst (List.tail_sublist _)) hnodup
  have hkeyout2 : key ∉ c.entries.tail.map Prod.fst := fun hmem =>
    hkeyout ((List.Sublist.map Prod.fst (List.tail_sublist c.entries)).subset hmem)
  refine ⟨?_, hstep, ?_⟩
  · rw [hstep, List.length_append, List.length_tail, hfull]
    simp
    omega
  · intro k e now2 hk hexp
    have hkne : k ≠ key := by
      intro hkk
      apply hkeyout2
      rw [← hkk]
      have := List.mem_map_of_mem Prod.fst hk
      simpa using this
    have hndapp : (((c.entries.tail ++ [(key, (⟨results, now, tokenize key⟩ : CacheEntry α))]).map Prod.fst)).Nodup := by
      rw [List.map_append, List.nodup_append]
      refine ⟨htailkeys, by simp, ?_⟩
      intro a ha hb
      simp only [List.map_cons, List.map_nil, List.mem_singleton] at hb
      exact hkeyout2 (hb ▸ ha)
    have hlk : alookup (cacheSet c key results now).entries k = some e := by
      rw [hstep]
      exact alookup_of_mem_nodup _ k e hndapp (List.mem_append_left _ hk)
    simp only [cacheGet, hlk]
    have httl : (cacheSet c key results now).ttlMs = c.ttlMs := rfl
    rw [httl, if_neg (not_lt.mpr hexp)]

/-- Witness for C5: a full cache of capacity 2 holding keys a and b (a
least recently used) receives a fresh key c: a is evicted, b stays
retrievable. -/
theorem cacheSet_lru_witness :
    (cacheSet (⟨2, 1000, 17/20, [("a", ⟨1, 0, tokenize "a"⟩), ("b", ⟨2, 0, tokenize "b"⟩)]⟩ : Cache ℕ)
      "c" 3 10).entries.length = 2 ∧
    (cacheSet (⟨2, 1000, 17/20, [("a", ⟨1, 0, tokenize "a"⟩), ("b", ⟨2, 0, tokenize "b"⟩)]⟩ : Cache ℕ)
      "c" 3 10).entries =
      ([("a", ⟨1, 0, tokenize "a"⟩), ("b", ⟨2, 0, tokenize "b"⟩)] : List (String × CacheEntry ℕ)).tail ++
        [("c", ⟨3, 10, tokenize "c"⟩)] ∧
    (∀ k : String, ∀ e : CacheEntry ℕ, ∀ now2 : ℤ,
      (k, e) ∈ ([("a", ⟨1, 0, tokenize "a"⟩), ("b", ⟨2, 0, tokenize "b"⟩)] : List (String × CacheEntry ℕ)).tail →
      now2 - e.ts ≤ 1000 →
      (cacheGet (cacheSet (⟨2, 1000, 17/20, [("a", ⟨1, 0, tokenize "a"⟩), ("b", ⟨2, 0, tokenize "b"⟩)]⟩ : Cache ℕ)
        "c" 3 10) k now2).1 = some e.results) :=
  cacheSet_lru (⟨2, 1000, 17/20, [("a", ⟨1, 0, tokenize "a"⟩), ("b", ⟨2, 0, tokenize "b"⟩)]⟩ : Cache ℕ)
    "c" 3 10 (by decide) (by decide) (by decide) (by decide)

end HookClaw.Metrics

namespace HookClaw

/-- Setting a key makes it look up to the new value. -/
theorem alookup_aset_self {β : Type} (l : List (String × β)) (k : String) (v : β) :
    alookup (aset l k v) k = some v := by
  induction l with
  | nil => simp [aset, RankFusion.alookup_cons]
  | cons p rest ih =>
    simp only [aset]
    by_cases h : p.1 = k
    · rw [if_pos h, RankFusion.alookup_cons]
      simp
    · rw [if_neg h, RankFusion.alookup_cons, if_neg h]
      exact ih

/-- Setting a key leaves other lookups unchanged. -/
theorem alookup_aset_ne {β : Type} (l : List (String × β)) (k k' : String) (v : β)
    (hne : k ≠ k') : alookup (aset l k v) k' = alookup l k' := by
  induction l with
  | nil => simp [aset, RankFusion.alookup_cons, hne]
  | cons p rest ih =>
    simp only [aset]
    by_cases h : p.1 = k
    · rw [if_pos h, RankFusion.alookup_cons, RankFusion.alookup_cons, if_neg hne,
        if_neg (fun hp => hne ((h.symm.trans hp)))]
    · rw [if_neg h, RankFusion.alookup_cons, RankFusion.alookup_cons]
      by_cases h2 : p.1 = k' <;> simp [h2, ih]

/-- Setting an absent key appends the binding at the end. -/
theorem aset_eq_append_of_lookup_none {β : Type} (l : List (String × β)) (k : String)
    (v : β) (h : alookup l k = none) : aset l k v = l ++ [(k, v)] := by
  induction l with
  | nil => simp [aset]
  | cons p rest ih =>
    rw [RankFusion.alookup_cons] at h
    by_cases hp : p.1 = k
    · rw [if_pos hp] at h
      exact absurd h (by simp)
    · rw [if_neg hp] at h
      simp only [aset, if_neg hp]
      rw [ih h]
      simp

/-- Erasing an absent key is a no-op. -/
theorem eraseKey_eq_of_lookup_none {β : Type} (l : List (String × β)) (k : String)
    (h : alookup l k = none) : eraseKey l k = l := by
  apply List.eraseP_of_forall_not
  intro p hp
  have := (RankFusion.alookup_eq_none_iff l k).mp h
  simp only [decide_eq_true_eq]
  intro hpk
  exact this (hpk ▸ List.mem_map_of_mem Prod.fst hp)

/-- A map with a bound key is a permutation of that binding consed onto the
map with the key erased. -/
theorem perm_cons_eraseKey {β : Type} (l : List (String × β)) (k : String) (v : β)
    (h : alookup l k = some v) : l.Perm ((k, v) :: eraseKey l k) := by
  induction l with
  | nil => simp [alookup] at h
  | cons p rest ih =>
    rw [RankFusion.alookup_cons] at h
    by_cases hp : p.1 = k
    · rw [if_pos hp] at h
      have hv : p.2 = v := by simpa using h
      have hpe : p = (k, v) := Prod.ext hp hv
      rw [eraseKey, List.eraseP_cons_of_pos (by simp [hp]), hpe]
    · rw [if_neg hp] at h
      rw [eraseKey, List.eraseP_cons_of_neg (by simp [hp])]
      exact (List.Perm.cons p (ih h)).trans (List.Perm.swap _ _ _)

/-- Setting a bound key is, up to permutation, erasing it and consing the
new binding. -/
theorem aset_perm_of_lookup_some {β : Type} (l : List (String × β)) (k : String)
    (v v0 : β) (h : alookup l k = some v0) :
    (aset l k v).Perm ((k, v) :: eraseKey l k) := by
  induction l with
  | nil => simp [alookup] at h
  | cons p rest ih =>
    rw [RankFusion.alookup_cons] at h
    by_cases hp : p.1 = k
    · simp only [aset, if_pos hp]
      rw [eraseKey, List.eraseP_cons_of_pos (by simp [hp])]
    · rw [if_neg hp] at h
      simp only [aset, if_neg hp]
      rw [eraseKey, List.eraseP_cons_of_neg (by simp [hp])]
      exact (List.Perm.cons p (ih h)).trans (List.Perm.swap _ _ _)

end HookClaw

namespace HookClaw.UtilityTracker

/-- Pending counts agree on permuted pending maps. -/
theorem pendCount_perm (p1 p2 : List (String × List (String × String)))
    (h : p1.Perm p2) (k : String) : pendCount p1 k = pendCount p2 k :=
  List.Perm.sum_eq (h.map _)

/-- Pending count over a cons cell. -/
theorem pendCount_cons (sk : String) (es : List (String × String))
    (p : List (String × List (String × String))) (k : String) :
    pendCount ((sk, es) :: p) k = es.countP (fun e => e.1 = k) + pendCount p k := by
  simp [pendCount]

/-- Pending count over an appended singleton. -/
theorem pendCount_append (sk : String) (es : List (String × String))
    (p : List (String × List (String × String))) (k : String) :
    pendCount (p ++ [(sk, es)]) k = pendCount p k + es.countP (fun e => e.1 = k) := by
  simp [pendCount]

/-- Incrementing a retrieval counter adds one at its own key. -/
theorem retrievalsOf_incRetrieval_self (sc : Scores) (k : String) :
    retrievalsOf (incRetrieval sc k) k = retrievalsOf sc k + 1 := by
  simp [incRetrieval, retrievalsOf, alookup_aset_self]

/-- Incrementing a retrieval counter leaves other keys unchanged. -/
theorem retrievalsOf_incRetrieval_ne (sc : Scores) (k k' : String) (h : k ≠ k') :
    retrievalsOf (incRetrieval sc k) k' = retrievalsOf sc k' := by
  simp [incRetrieval, retrievalsOf, alookup_aset_ne _ _ _ _ h]

/-- Incrementing a retrieval counter never changes citation counters. -/
theorem citationsOf_incRetrieval (sc : Scores) (k k' : String) :
    citationsOf (incRetrieval sc k) k' = citationsOf sc k' := by
  by_cases h : k = k'
  · subst h
    simp [incRetrieval, citationsOf, alookup_aset_self]
  · simp [incRetrieval, citationsOf, alookup_aset_ne _ _ _ _ h]

/-- The retrieval-increment fold of recordInjection adds, at each key, the
number of pending entries with that key, and changes no citation counter. -/
theorem foldIncRetrieval (es : List (String × String)) :
    ∀ sc : Scores,
      (∀ k, retrievalsOf (es.foldl (fun sc2 e => incRetrieval sc2 e.1) sc) k =
        retrievalsOf sc k + es.countP (fun e => e.1 = k)) ∧
      (∀ k, citationsOf (es.foldl (fun sc2 e => incRetrieval sc2 e.1) sc) k =
        citationsOf sc k) := by
  induction es with
  | nil => intro sc; simp
  | cons e rest ih =>
    intro sc
    constructor
    · intro k
      rw [List.foldl_cons, (ih _).1 k, List.countP_cons]
      by_cases h : e.1 = k
      · rw [← h, retrievalsOf_incRetrieval_self]
        simp [h]
        omega
      · rw [retrievalsOf_incRetrieval_ne _ _ _ h]
        simp [h]
    · intro k
      rw [List.foldl_cons, (ih _).2 k, citationsOf_incRetrieval]

/-- Incrementing a citation counter adds at most one at its own key
(nothing when the record is absent) and nothing elsewhere. -/
theorem citationsOf_incCitation_le (sc : Scores) (j k : String) :
    citationsOf (incCitation sc j) k ≤ citationsOf sc k + (if j = k then 1 else 0) := by
  rw [incCitation]
  cases hl : alookup sc j with
  | none => simp
  | some e =>
    by_cases h : j = k
    · subst h
      simp [citationsOf, alookup_aset_self, hl]
    · simp [citationsOf, alookup_aset_ne _ _ _ _ h]

/-- Incrementing a citation counter never changes retrieval counters. -/
theorem retrievalsOf_incCitation (sc : Scores) (j k : String) :
    retrievalsOf (incCitation sc j) k = retrievalsOf sc k := by
  rw [incCitation]
  cases hl : alookup sc j with
  | none => rfl
  | some e =>
    by_cases h : j = k
    · subst h
      simp [retrievalsOf, alookup_aset_self, hl]
    · simp [retrievalsOf, alookup_aset_ne _ _ _ _ h]

/-- The citation fold of recordResponse adds, at each key, at most the
number of pending entries with that key, and changes no retrieval counter. -/
theorem foldCitation (resp : String) (es : List (String × String)) :
    ∀ sc : Scores,
      (∀ k, citationsOf
        (es.foldl (fun sc2 e => if judgeCited e.1 e.2 resp then incCitation sc2 e.1 else sc2) sc) k ≤
        citationsOf sc k + es.countP (fun e => e.1 = k)) ∧
      (∀ k, retrievalsOf
        (es.foldl (fun sc2 e => if judgeCited e.1 e.2 resp then incCitation sc2 e.1 else sc2) sc) k =
        retrievalsOf sc k) := by
  induction es with
  | nil => intro sc; simp
  | cons e rest ih =>
    intro sc
    constructor
    · intro k
      rw [List.foldl_cons]
      refine le_trans ((ih _).1 k) ?_
      have hstep : citationsOf (if judgeCited e.1 e.2 resp then incCitation sc e.1 else sc) k ≤
          citationsOf sc k + (if e.1 = k then 1 else 0) := by
        split
        · exact citationsOf_incCitation_le sc e.1 k
        · simp
      rw [List.countP_cons]
      simp only [decide_eq_true_eq]
      omega
    · intro k
      rw [List.foldl_cons, (ih _).2 k]
      split
      · exact retrievalsOf_incCitation sc e.1 k
      · rfl

/-- Unfolding of recordResponse when the session has no pending entry. -/
theorem recordResponse_of_none (st : TrackerState) (sk t : String)
    (hlp : alookup st.pending sk = none) :
    recordResponse st sk t = { st with pending := eraseKey st.pending sk } := by
  simp [recordResponse, hlp]

/-- Unfolding of recordResponse for an empty response. -/
theorem recordResponse_of_empty (st : TrackerState) (sk : String)
    (es : List (String × String)) (hlp : alookup st.pending sk = some es) :
    recordResponse st sk "" = { st with pending := eraseKey st.pending sk } := by
  simp [recordResponse, hlp]

/-- Unfolding of recordResponse for a pending session and non-empty
response. -/
theorem recordResponse_of_some (st : TrackerState) (sk t : String)
    (es : List (String × String)) (hlp : alookup st.pending sk = some es)
    (ht : t ≠ "") :
    recordResponse st sk t =
      { scores := es.foldl
          (fun sc e => if judgeCited e.1 e.2 t then incCitation sc e.1 else sc) st.scores
        pending := eraseKey st.pending sk } := by
  simp [recordResponse, hlp, ht]

/-- One operation preserves the central accounting invariant: citations
plus pending occurrences never exceed retrievals, at every key. -/
theorem applyOp_inv (st : TrackerState) (op : Op)
    (h : ∀ k, citationsOf st.scores k + pendCount st.pending k ≤ retrievalsOf st.scores k) :
    ∀ k, citationsOf (applyOp st op).scores k + pendCount (applyOp st op).pending k ≤
      retrievalsOf (applyOp st op).scores k := by
  cases op with
  | inj sk cs =>
    show ∀ k, citationsOf (recordInjection st sk cs).scores k +
      pendCount (recordInjection st sk cs).pending k ≤
      retrievalsOf (recordInjection st sk cs).scores k
    rw [recordInjection]
    by_cases hcs : cs.isEmpty = true
    · rw [if_pos hcs]
      exact h
    · rw [if_neg hcs]
      intro k
      simp only
      rw [(foldIncRetrieval _ st.scores).1 k, (foldIncRetrieval _ st.scores).2 k]
      cases hlp : alookup st.pending sk with
      | none =>
        rw [aset_eq_append_of_lookup_none _ _ _ hlp, pendCount_append]
        have := h k
        omega
      | some old =>
        rw [pendCount_perm _ _ (aset_perm_of_lookup_some st.pending sk _ old hlp) k,
          pendCount_cons]
        have hold : pendCount st.pending k =
            old.countP (fun e => e.1 = k) + pendCount (eraseKey st.pending sk) k := by
          rw [pendCount_perm _ _ (perm_cons_eraseKey st.pending sk old hlp) k, pendCount_cons]
        have := h k
        omega
  | resp sk t =>
    show ∀ k, citationsOf (recordResponse st sk t).scores k +
      pendCount (recordResponse st sk t).pending k ≤
      retrievalsOf (recordResponse st sk t).scores k
    cases hlp : alookup st.pending sk with
    | none =>
      rw [recordResponse_of_none st sk t hlp]
      intro k
      simp only
      rw [eraseKey_eq_of_lookup_none _ _ hlp]
      exact h k
    | some es =>
      have hold : ∀ k, pendCount st.pending k =
          es.countP (fun e => e.1 = k) + pendCount (eraseKey st.pending sk) k := by
        intro k
        rw [pendCount_perm _ _ (perm_cons_eraseKey st.pending sk es hlp) k, pendCount_cons]
      by_cases ht : t = ""
      · subst ht
        rw [recordResponse_of_empty st sk es hlp]
        intro k
        simp only
        have h1 := h k
        have h2 := hold k
        omega
      · rw [recordResponse_of_some st sk t es hlp ht]
        intro k
        simp only
        rw [(foldCitation t es st.scores).2 k]
        have h3 := (foldCitation t es st.scores).1 k
        have h1 := h k
        have h2 := hold k
        omega

end HookClaw.UtilityTracker

namespace HookClaw.UtilityTracker

/-- Running any operation sequence from the empty tracker preserves the
accounting invariant. -/
theorem runOps_inv (ops : List Op) :
    ∀ k, citationsOf (runOps ops).scores k + pendCount (runOps ops).pending k ≤
      retrievalsOf (runOps ops).scores k := by
  rw [runOps]
  have hgen : ∀ st : TrackerState,
      (∀ k, citationsOf st.scores k + pendCount st.pending k ≤ retrievalsOf st.scores k) →
      ∀ k, citationsOf (ops.foldl applyOp st).scores k +
        pendCount (ops.foldl applyOp st).pending k ≤
        retrievalsOf (ops.foldl applyOp st).scores k := by
    induction ops with
    | nil => intro st h; exact h
    | cons op rest ih =>
      intro st h
      rw [List.foldl_cons]
      exact ih (applyOp st op) (applyOp_inv st op h)
  apply hgen
  intro k
  simp [initState, citationsOf, retrievalsOf, pendCount, alookup]

/-- Claim C10: starting from an empty tracker, after any sequence of
recordInjection and recordResponse operations every stored record has
citations at most retrievals, and getUtilityScore never exceeds 1. -/
theorem utilityTracker_citations_le_retrievals (ops : List Op) :
    (∀ k : String, ∀ r : UtilRecord, alookup (runOps ops).scores k = some r →
      r.citations ≤ r.retrievals) ∧
    (∀ k : String, getUtilityScore (runOps ops).scores k ≤ 1) := by
  have hinv := runOps_inv ops
  have hrec : ∀ k : String, ∀ r : UtilRecord, alookup (runOps ops).scores k = some r →
      r.citations ≤ r.retrievals := by
    intro k r hr
    have h1 := hinv k
    rw [citationsOf, retrievalsOf, hr] at h1
    simp only [Option.getD_some] at h1
    omega
  refine ⟨hrec, fun k => ?_⟩
  cases hlk : alookup (runOps ops).scores k with
  | none => norm_num [getUtilityScore, hlk]
  | some r =>
    have hcr : r.citations ≤ r.retrievals := hrec k r hlk
    simp only [getUtilityScore, hlk]
    split
    · norm_num
    · simp only [bayesianPrior, bayesianPriorCitations]
      rw [div_le_one (by positivity)]
      have hq : (r.citations : ℚ) ≤ (r.retrievals : ℚ) := by exact_mod_cast hcr
      linarith

/-- Witness for C10: a concrete injection-then-response run keeps every
record consistent and every utility score at most 1. -/
theorem utilityTracker_citations_le_retrievals_witness :
    (∀ k : String, ∀ r : UtilRecord,
      alookup (runOps [Op.inj "s" [⟨"p", "zzzz"⟩], Op.resp "s" "zzzz indeed"]).scores k = some r →
      r.citations ≤ r.retrievals) ∧
    (∀ k : String,
      getUtilityScore (runOps [Op.inj "s" [⟨"p", "zzzz"⟩], Op.resp "s" "zzzz indeed"]).scores k ≤ 1) :=
  utilityTracker_citations_le_retrievals [Op.inj "s" [⟨"p", "zzzz"⟩], Op.resp "s" "zzzz indeed"]

end HookClaw.UtilityTracker
